import Mathlib

/-!
# CodeCollector: interactive hierarchical file-selection engine, formalised

A shallow embedding of the selection engine of the CodeCollector repository:

* `TreeNode` models `TreeNode` (src/codecollector/models.py): a file node carries
  its `selected` flag (authoritative only on files), a directory node carries
  its `expanded` flag and an ordered child list.
* `selState`, `setSelectedRecursive`, `getSelectedFiles` embed the methods of
  `TreeNode`.
* `SelectorState`, `handleKey`, `runFrom`, `getVisibleNodes`, `expandAll`,
  `collapseAll`, `applySaved`, `sortTree` embed `InteractiveSelector`
  (src/codecollector/selector.py).
* `isIgnoredByGitignore` embeds `GitignoreHandler.is_ignored_by_gitignore`
  (src/utils.py), together with a model of Python's `fnmatch.fnmatch`
  (POSIX behaviour, where `os.path.normcase` is the identity).
-/

set_option maxRecDepth 10000

/-- Selection summary of a node: the Python strings `'all'`, `'none'`,
`'partial'` are modelled as `sAll`, `sNone`, `sPart`. -/
inductive SelState where
  | sAll
  | sNone
  | sPart
deriving DecidableEq, Repr

/-- `TreeNode` (models.py): a node of the file tree.  A file node stores its
`selected` flag; a directory node stores its `expanded` flag and its ordered
children.  (`TreeNode.selected` is never read or written on directories, and
`TreeNode.expanded` is never read on files, so those fields are omitted; the
`visible` field of the Python class is never used at all.) -/
inductive TreeNode where
  | file (path : String) (selected : Bool)
  | dir (path : String) (expanded : Bool) (children : List TreeNode)

/-- Induction principle for `TreeNode` giving the hypothesis on every member of a
directory's child list. -/
theorem TreeNode.myrec {P : TreeNode → Prop}
    (hf : ∀ p s, P (TreeNode.file p s))
    (hd : ∀ p e cs, (∀ c ∈ cs, P c) → P (TreeNode.dir p e cs)) : ∀ t, P t := by
  intro t
  match t with
  | TreeNode.file p s => exact hf p s
  | TreeNode.dir p e cs =>
    exact hd p e cs (fun c hc => TreeNode.myrec hf hd c)
termination_by t => sizeOf t
decreasing_by
  have h1 : sizeOf c < sizeOf cs := List.sizeOf_lt_of_mem hc
  simp only [TreeNode.dir.sizeOf_spec]
  omega

mutual

/-- `TreeNode.get_selection_state` (models.py lines 45-61): a file reports
`'all'` iff selected; a directory with an empty child list reports `'none'`;
otherwise the children whose own state is `'all'` or `'partial'` are counted,
and the directory reports `'none'` if the count is zero, `'all'` if every
child counts, and `'partial'` otherwise. -/
def selState : TreeNode → SelState
  | TreeNode.file _ s => if s then SelState.sAll else SelState.sNone
  | TreeNode.dir _ _ cs =>
    if cs.length = 0 then SelState.sNone
    else
      let k := contribCount cs
      if k = 0 then SelState.sNone
      else if k = cs.length then SelState.sAll
      else SelState.sPart

/-- The `sum(1 for child in self.children if child.get_selection_state() in
['all', 'partial'])` subexpression of `get_selection_state`. -/
def contribCount : List TreeNode → Nat
  | [] => 0
  | c :: cs =>
    (if selState c = SelState.sAll ∨ selState c = SelState.sPart then 1 else 0)
      + contribCount cs

end

mutual

/-- `TreeNode.set_selected_recursive` (models.py lines 63-69): set the flag on
a file, recurse into children on a directory. -/
def setSelectedRecursive (b : Bool) : TreeNode → TreeNode
  | TreeNode.file p _ => TreeNode.file p b
  | TreeNode.dir p e cs => TreeNode.dir p e (setSelList b cs)

/-- Child-list traversal of `set_selected_recursive`. -/
def setSelList (b : Bool) : List TreeNode → List TreeNode
  | [] => []
  | c :: cs => setSelectedRecursive b c :: setSelList b cs

end

mutual

/-- `TreeNode.get_selected_files` (models.py lines 83-91): a selected file
yields its own path, a directory concatenates its children's results in child
order (depth-first pre-order). -/
def getSelectedFiles : TreeNode → List String
  | TreeNode.file p s => if s then [p] else []
  | TreeNode.dir _ _ cs => getSelFilesList cs

/-- Child-list traversal of `get_selected_files`. -/
def getSelFilesList : List TreeNode → List String
  | [] => []
  | c :: cs => getSelectedFiles c ++ getSelFilesList cs

end

mutual

/-- Does the subtree contain a selected file?  (Derived notion used to state
properties; not a method of the source, but the semantic reading of
"contributing" in `get_selection_state`.) -/
def hasSelFile : TreeNode → Bool
  | TreeNode.file _ s => s
  | TreeNode.dir _ _ cs => hasSelFileList cs

/-- `hasSelFile` over a child list. -/
def hasSelFileList : List TreeNode → Bool
  | [] => false
  | c :: cs => hasSelFile c || hasSelFileList cs

end

mutual

/-- Every file in the subtree has `selected = b`. -/
def allFilesAre (b : Bool) : TreeNode → Bool
  | TreeNode.file _ s => s == b
  | TreeNode.dir _ _ cs => allFilesAreList b cs

/-- `allFilesAre` over a child list. -/
def allFilesAreList (b : Bool) : List TreeNode → Bool
  | [] => true
  | c :: cs => allFilesAre b c && allFilesAreList b cs

end

mutual

/-- Every directory in the subtree has a non-empty child list.  Trees built by
`InteractiveSelector._build_file_tree` satisfy this: a directory node is
materialised only on the path of some inserted file, so it always receives at
least one child. -/
def dirsNonempty : TreeNode → Bool
  | TreeNode.file _ _ => true
  | TreeNode.dir _ _ cs => !cs.isEmpty && dirsNonemptyList cs

/-- `dirsNonempty` over a child list. -/
def dirsNonemptyList : List TreeNode → Bool
  | [] => true
  | c :: cs => dirsNonempty c && dirsNonemptyList cs

end

mutual

/-- Every directory in the subtree has `expanded = true`. -/
def allDirsExpanded : TreeNode → Bool
  | TreeNode.file _ _ => true
  | TreeNode.dir _ e cs => e && allDirsExpandedList cs

/-- `allDirsExpanded` over a child list. -/
def allDirsExpandedList : List TreeNode → Bool
  | [] => true
  | c :: cs => allDirsExpanded c && allDirsExpandedList cs

end

/-! ## The interactive selector (src/codecollector/selector.py) -/

mutual

/-- The subtrees listed by `InteractiveSelector._get_visible_nodes`'s
`traverse` when entered at a non-root node: the node itself, followed — only
if it is an expanded directory — by its children's visible subtrees.  (The
depth component returned by the source is used solely for display
indentation and is omitted.) -/
def visSubtrees : TreeNode → List TreeNode
  | TreeNode.file p s => [TreeNode.file p s]
  | TreeNode.dir p e cs => TreeNode.dir p e cs :: (if e then visList cs else [])

/-- `visSubtrees` concatenated over a child list. -/
def visList : List TreeNode → List TreeNode
  | [] => []
  | c :: cs => visSubtrees c ++ visList cs

end

/-- `InteractiveSelector._get_visible_nodes`: pre-order walk from the root.
The root itself is never listed, and a directory's children are visited only
when it is expanded. -/
def getVisibleNodes (t : TreeNode) : List TreeNode :=
  match t with
  | TreeNode.file _ _ => []
  | TreeNode.dir _ e cs => if e then visList cs else []

mutual

/-- In-place mutation of the node object found at index `i` of the visible
list: the Python handler fetches `visible_nodes[pos]` and mutates that node
(and, for recursive operations, its subtree) by reference.  Functionally:
rebuild the subtree, applying `g` to the subtree rooted at visible index `i`.
Out-of-range indices change nothing. -/
def modVisT (g : TreeNode → TreeNode) : TreeNode → Nat → TreeNode
  | t, 0 => g t
  | TreeNode.file p s, _ + 1 => TreeNode.file p s
  | TreeNode.dir p e cs, i + 1 =>
    TreeNode.dir p e (if e then modVisList g cs i else cs)

/-- `modVisT` over a child list, with the index counted through the visible
subtree lists of successive children. -/
def modVisList (g : TreeNode → TreeNode) : List TreeNode → Nat → List TreeNode
  | [], _ => []
  | c :: cs, i =>
    if i < (visSubtrees c).length then modVisT g c i :: cs
    else c :: modVisList g cs (i - (visSubtrees c).length)

end

/-- Apply `g` to the node at index `i` of `getVisibleNodes t` (the root is
not part of the visible list). -/
def modifyVisibleAt (t : TreeNode) (i : Nat) (g : TreeNode → TreeNode) : TreeNode :=
  match t with
  | TreeNode.file p s => TreeNode.file p s
  | TreeNode.dir p e cs => TreeNode.dir p e (if e then modVisList g cs i else cs)

/-- The `SPACE` branch of `InteractiveSelector._handle_key` (lines 159-168),
applied to the node under the cursor: a file has its `selected` flag flipped;
a directory is set recursively to `state != 'all'` where `state` is its
current aggregated selection state. -/
def activateNode : TreeNode → TreeNode
  | TreeNode.file p s => TreeNode.file p (!s)
  | TreeNode.dir p e cs =>
    setSelectedRecursive (selState (TreeNode.dir p e cs) != SelState.sAll)
      (TreeNode.dir p e cs)

/-- The `RIGHT` branch of `_handle_key`: set `expanded = True` on the node
under the cursor if it is a directory (children untouched). -/
def expandNode : TreeNode → TreeNode
  | TreeNode.file p s => TreeNode.file p s
  | TreeNode.dir p _ cs => TreeNode.dir p true cs

/-- The `LEFT` branch of `_handle_key`: set `expanded = False` on the node
under the cursor if it is a directory (children untouched). -/
def collapseNode : TreeNode → TreeNode
  | TreeNode.file p s => TreeNode.file p s
  | TreeNode.dir p _ cs => TreeNode.dir p false cs

mutual

/-- `InteractiveSelector._expand_all` (lines 294-299): recursively set every
directory's `expanded = True`. -/
def expandAll : TreeNode → TreeNode
  | TreeNode.file p s => TreeNode.file p s
  | TreeNode.dir p _ cs => TreeNode.dir p true (expandAllList cs)

/-- `expandAll` over a child list. -/
def expandAllList : List TreeNode → List TreeNode
  | [] => []
  | c :: cs => expandAll c :: expandAllList cs

end

mutual

/-- `InteractiveSelector._collapse_all` (lines 301-306): set
`expanded = (depth == 0)` on every directory, where the root is visited at
depth `0` and children at `depth + 1`. -/
def collapseAll : TreeNode → Nat → TreeNode
  | TreeNode.file p s, _ => TreeNode.file p s
  | TreeNode.dir p _ cs, d => TreeNode.dir p (d == 0) (collapseAllList cs (d + 1))

/-- `collapseAll` over a child list. -/
def collapseAllList : List TreeNode → Nat → List TreeNode
  | [], _ => []
  | c :: cs, d => collapseAll c d :: collapseAllList cs d

end

mutual

/-- The `mark_selected` closure of
`InteractiveSelector._apply_saved_selection` (lines 261-277): a file is
selected if its path is in the saved file set; a directory whose path is in
the saved folder set has its whole subtree selected via
`set_selected_recursive(True)` and is not descended into further; any other
directory is recursed into child by child. -/
def applySaved (files folders : List String) : TreeNode → TreeNode
  | TreeNode.file p s => if p ∈ files then TreeNode.file p true else TreeNode.file p s
  | TreeNode.dir p e cs =>
    if p ∈ folders then TreeNode.dir p e (setSelList true cs)
    else TreeNode.dir p e (applySavedList files folders cs)

/-- `applySaved` over a child list. -/
def applySavedList (files folders : List String) : List TreeNode → List TreeNode
  | [] => []
  | c :: cs => applySaved files folders c :: applySavedList files folders cs

end

/-! ## Glob matching (Python `fnmatch.fnmatch`, POSIX) and the gitignore
matcher (`GitignoreHandler.is_ignored_by_gitignore`, src/utils.py
lines 186-229).

`fnmatch.fnmatch` on POSIX (where `os.path.normcase` is the identity)
anchors the whole name against the pattern: `*` matches any character
sequence (including `/`), `?` any single character, and `[...]` a character
class (leading `!` negates; a `]` directly after `[` or `[!` is a literal
member; an unmatched `[` is a literal `[`; `a-b` inside a class is an
inclusive code-point range, with a trailing `-` literal). -/

/-- Does character class content (the characters between the brackets, `!`
already stripped) match `c`?  `x-y` is an inclusive range; a `-` without a
right endpoint is a literal. -/
def classMatchChar (c : Char) : List Char → Bool
  | x :: '-' :: y :: rest =>
    (decide (x.toNat ≤ c.toNat) && decide (c.toNat ≤ y.toNat)) || classMatchChar c rest
  | x :: rest => (x == c) || classMatchChar c rest
  | [] => false

/-- Split a character list at the first `]`, returning the content before it
and the remainder after it; `none` when there is no `]`. -/
def findClose : List Char → Option (List Char × List Char)
  | [] => Option.none
  | ']' :: rest => some ([], rest)
  | c :: rest => (findClose rest).map (fun pr => (c :: pr.1, pr.2))

/-- Parse a character class from the characters following a `[`: an optional
leading `!` negates; a `]` immediately after (the optional `!`) is part of
the class.  Returns `(negated, content, rest-of-pattern)`; `none` when the
class is never closed (the `[` is then a literal). -/
def parseClass (ps : List Char) : Option (Bool × List Char × List Char) :=
  match ps with
  | '!' :: ']' :: rest => (findClose rest).map (fun pr => (true, ']' :: pr.1, pr.2))
  | '!' :: rest => (findClose rest).map (fun pr => (true, pr.1, pr.2))
  | ']' :: rest => (findClose rest).map (fun pr => (false, ']' :: pr.1, pr.2))
  | _ => (findClose ps).map (fun pr => (false, pr.1, pr.2))

/-- Tokens of a compiled glob pattern. -/
inductive GTok where
  | star
  | qmark
  | lit (c : Char)
  | cls (negated : Bool) (content : List Char)

/-- Pattern compiler, structurally recursive on a fuel argument that is
always instantiated with the pattern length (each step consumes at least one
pattern character, so that fuel provably suffices). -/
def compilePatAux : Nat → List Char → List GTok
  | 0, _ => []
  | _ + 1, [] => []
  | fuel + 1, '*' :: ps => GTok.star :: compilePatAux fuel ps
  | fuel + 1, '?' :: ps => GTok.qmark :: compilePatAux fuel ps
  | fuel + 1, '[' :: ps =>
    match parseClass ps with
    | Option.none => GTok.lit '[' :: compilePatAux fuel ps
    | some (neg, content, rest) => GTok.cls neg content :: compilePatAux fuel rest
  | fuel + 1, c :: ps => GTok.lit c :: compilePatAux fuel ps

/-- Compile a glob pattern to tokens. -/
def compilePat (ps : List Char) : List GTok := compilePatAux ps.length ps

/-- Match a compiled glob pattern against a whole character list.  A `*`
matches an arbitrary prefix, expressed by trying every suffix of the
remaining input. -/
def gmatch : List GTok → List Char → Bool
  | [], s => s.isEmpty
  | GTok.star :: ts, s => (List.tails s).any (fun s2 => gmatch ts s2)
  | GTok.qmark :: ts, s =>
    match s with
    | [] => false
    | _ :: ss => gmatch ts ss
  | GTok.lit c :: ts, s =>
    match s with
    | [] => false
    | d :: ss => (c == d) && gmatch ts ss
  | GTok.cls neg content :: ts, s =>
    match s with
    | [] => false
    | d :: ss =>
      (if neg then !(classMatchChar d content) else classMatchChar d content)
        && gmatch ts ss

/-- `fnmatch.fnmatch(name, pattern)` on POSIX. -/
def fnmatchB (name pat : String) : Bool := gmatch (compilePat pat.toList) name.toList

/-- Split a character list into `/`-separated segments
(`pathlib.PurePath.parts` of a relative path). -/
def splitSeg : List Char → List (List Char)
  | [] => [[]]
  | '/' :: r => [] :: splitSeg r
  | c :: r =>
    match splitSeg r with
    | [] => [[c]]
    | seg :: segs => (c :: seg) :: segs

/-- Join segments with `/` (`'/'.join(...)`). -/
def joinSeg : List (List Char) → List Char
  | [] => []
  | [seg] => seg
  | seg :: segs => seg ++ '/' :: joinSeg segs

/-- The per-pattern body of the loop in
`GitignoreHandler.is_ignored_by_gitignore`: strip one leading `/`; then the
path is matched if (a) it equals the pattern, (b) the pattern glob-matches
the whole path, (c) the pattern glob-matches the suffix of segments starting
at any index `i`, (d) the pattern glob-matches the single segment at any
index `i`, or (e) the pattern ends in `/` and, with that slash stripped,
glob-matches any single segment. -/
def matchesPattern (relPath : List Char) (pat0 : List Char) : Bool :=
  let pat := match pat0 with
    | '/' :: r => r
    | r => r
  (relPath == pat)
  || gmatch (compilePat pat) relPath
  || (let parts := splitSeg relPath
      (List.range parts.length).any (fun i =>
        gmatch (compilePat pat) (joinSeg (parts.drop i))
        || gmatch (compilePat pat) (parts.getD i [])))
  || ((pat.getLast? == some '/')
      && (splitSeg relPath).any (fun part => gmatch (compilePat pat.dropLast) part))

/-- `GitignoreHandler.is_ignored_by_gitignore` (src/utils.py lines 186-229),
taking the already-computed root-relative, forward-slash path (the source
computes it with `relative_to`; a path outside the root returns `False`
before any pattern is consulted, which callers pass directly here by not
calling).  An empty pattern list ignores nothing; otherwise the path is
ignored if any pattern matches. -/
def isIgnoredByGitignore (relPathStr : String) (patterns : List String) : Bool :=
  if patterns = [] then false
  else patterns.any (fun pat => matchesPattern relPathStr.toList pat.toList)
/-! ## Projections and child sorting (`InteractiveSelector._sort_tree_children`) -/

/-- `TreeNode.path`. -/
def pathOf : TreeNode → String
  | TreeNode.file p _ => p
  | TreeNode.dir p _ _ => p

/-- `TreeNode.is_file`. -/
def isFileB : TreeNode → Bool
  | TreeNode.file _ _ => true
  | TreeNode.dir _ _ _ => false

/-- `TreeNode.expanded` (meaningful on directories; a file's flag is
initialised to `not is_file`, i.e. `False`, and never read). -/
def expandedOf : TreeNode → Bool
  | TreeNode.file _ _ => false
  | TreeNode.dir _ e _ => e

/-- `TreeNode.children` (empty for files, whose `children` is `None`). -/
def childrenOf : TreeNode → List TreeNode
  | TreeNode.file _ _ => []
  | TreeNode.dir _ _ cs => cs

/-- `node.path.name` as a character list: the last `/`-separated component
of the node's path. -/
def nodeName (t : TreeNode) : List Char := (splitSeg (pathOf t).toList).getLastD []

/-- The sort key comparison of `_sort_tree_children` (lines 254-259):
Python's tuple order on `(x.is_file, x.path.name.lower())` — directories
(`is_file = False`) before files, then case-insensitively (lower-cased,
code-point lexicographic) by name. -/
def nodeLe (a b : TreeNode) : Bool :=
  (!isFileB a && isFileB b)
    || ((isFileB a == isFileB b)
        && decide ((nodeName a).map Char.toLower ≤ (nodeName b).map Char.toLower))

mutual

/-- `InteractiveSelector._sort_tree_children`: sort the children of every
directory by `nodeLe` (Python `list.sort` is a stable merge sort, modelled by
`List.mergeSort`), then recurse into each (sorted) child. -/
def sortTree : TreeNode → TreeNode
  | TreeNode.file p s => TreeNode.file p s
  | TreeNode.dir p e cs => TreeNode.dir p e (sortTreeList (cs.mergeSort nodeLe))
termination_by t => sizeOf t
decreasing_by
  have h1 : sizeOf (cs.mergeSort nodeLe) = sizeOf cs :=
    (List.mergeSort_perm cs nodeLe).sizeOf_eq_sizeOf
  simp only [TreeNode.dir.sizeOf_spec]
  omega

/-- `sortTree` over a child list. -/
def sortTreeList : List TreeNode → List TreeNode
  | [] => []
  | c :: cs => sortTree c :: sortTreeList cs
termination_by cs => sizeOf cs
decreasing_by
  · simp only [List.cons.sizeOf_spec]; omega
  · simp only [List.cons.sizeOf_spec]; omega

end

/-- Every directory's child list is sorted by `nodeLe`, throughout the
tree. -/
inductive ChildrenSorted : TreeNode → Prop where
  | file : ∀ p s, ChildrenSorted (TreeNode.file p s)
  | dir : ∀ p e cs, cs.Pairwise (fun a b => nodeLe a b = true) →
      (∀ c ∈ cs, ChildrenSorted c) → ChildrenSorted (TreeNode.dir p e cs)

/-! ## Statement-side definitions (derived notions used to state claims) -/

mutual

/-- Install a selection assignment: set each file's `selected` flag to
`f path`.  Used to quantify over "which files are selected", independently of
the order in which individual selections were made. -/
def applyFlags (f : String → Bool) : TreeNode → TreeNode
  | TreeNode.file p _ => TreeNode.file p (f p)
  | TreeNode.dir p e cs => TreeNode.dir p e (applyFlagsList f cs)

/-- `applyFlags` over a child list. -/
def applyFlagsList (f : String → Bool) : List TreeNode → List TreeNode
  | [] => []
  | c :: cs => applyFlags f c :: applyFlagsList f cs

end

mutual

/-- The paths of all file nodes in depth-first pre-order (child order). -/
def preorderFilePaths : TreeNode → List String
  | TreeNode.file p _ => [p]
  | TreeNode.dir _ _ cs => preorderFilePathsList cs

/-- `preorderFilePaths` over a child list. -/
def preorderFilePathsList : List TreeNode → List String
  | [] => []
  | c :: cs => preorderFilePaths c ++ preorderFilePathsList cs

end

mutual

/-- Erase every selection flag (set each file's `selected` to `false`).
Two trees with equal `eraseSel` images agree on paths, structure, child
order and every `expanded` flag. -/
def eraseSel : TreeNode → TreeNode
  | TreeNode.file p _ => TreeNode.file p false
  | TreeNode.dir p e cs => TreeNode.dir p e (eraseSelList cs)

/-- `eraseSel` over a child list. -/
def eraseSelList : List TreeNode → List TreeNode
  | [] => []
  | c :: cs => eraseSel c :: eraseSelList cs

end

mutual

/-- Erase every expansion flag (set each directory's `expanded` to `false`).
Two trees with equal `eraseExp` images agree on paths, structure, child
order and every file's `selected` flag. -/
def eraseExp : TreeNode → TreeNode
  | TreeNode.file p s => TreeNode.file p s
  | TreeNode.dir p _ cs => TreeNode.dir p false (eraseExpList cs)

/-- `eraseExp` over a child list. -/
def eraseExpList : List TreeNode → List TreeNode
  | [] => []
  | c :: cs => eraseExp c :: eraseExpList cs

end

mutual

/-- The specification reading of reconciliation (spec §4.2, "Reconciliation"):
with `anc` recording whether some ancestor directory's path is in the saved
folder set, a file ends selected iff it lies under such an ancestor, or its
path is in the saved file set, or it was already selected. -/
def applySavedSpec (files folders : List String) (anc : Bool) : TreeNode → TreeNode
  | TreeNode.file p s => TreeNode.file p (anc || decide (p ∈ files) || s)
  | TreeNode.dir p e cs =>
    TreeNode.dir p e (applySavedSpecList files folders (anc || decide (p ∈ folders)) cs)

/-- `applySavedSpec` over a child list. -/
def applySavedSpecList (files folders : List String) (anc : Bool) :
    List TreeNode → List TreeNode
  | [] => []
  | c :: cs =>
    applySavedSpec files folders anc c :: applySavedSpecList files folders anc cs

end

mutual

/-- Set every directory's `expanded` flag to `false` (what `_collapse_all`
does strictly below the root). -/
def deepCollapsed : TreeNode → TreeNode
  | TreeNode.file p s => TreeNode.file p s
  | TreeNode.dir p _ cs => TreeNode.dir p false (deepCollapsedList cs)

/-- `deepCollapsed` over a child list. -/
def deepCollapsedList : List TreeNode → List TreeNode
  | [] => []
  | c :: cs => deepCollapsed c :: deepCollapsedList cs

end

/-- What `_collapse_all(tree_root)` amounts to: the root (recursion depth 0)
keeps `expanded = true`, every other directory gets `expanded = false`. -/
def collapseAllSpec : TreeNode → TreeNode
  | TreeNode.file p s => TreeNode.file p s
  | TreeNode.dir p _ cs => TreeNode.dir p true (deepCollapsedList cs)

mutual

/-- The per-file selection flags in depth-first pre-order: `(path, selected)`
for every file node. -/
def fileFlags : TreeNode → List (String × Bool)
  | TreeNode.file p s => [(p, s)]
  | TreeNode.dir _ _ cs => fileFlagsList cs

/-- `fileFlags` over a child list. -/
def fileFlagsList : List TreeNode → List (String × Bool)
  | [] => []
  | c :: cs => fileFlags c ++ fileFlagsList cs

end

/-- The mutable state of `InteractiveSelector` that the key handler touches:
the tree, `current_pos`, `current_page`, `page_size` and `search_term`. -/
structure SelectorState where
  tree : TreeNode
  currentPos : Nat
  currentPage : Nat
  pageSize : Nat
  searchTerm : String

/-- The `total_pages` computation at the top of `_handle_key` (line 145):
`(len(visible_nodes) - 1) // page_size + 1 if visible_nodes else 1`. -/
def totalPagesOf (st : SelectorState) : Nat :=
  if (getVisibleNodes st.tree).isEmpty then 1
  else ((getVisibleNodes st.tree).length - 1) / st.pageSize + 1

/-- The logical key events consumed by `_handle_key`.  `find` carries the
line of text that the Python handler reads from standard input; `reset` is
the `'r'`/`'R'` key; `other` stands for any key string with no handler
branch (the handler then falls through, changing nothing). -/
inductive Key where
  | up
  | down
  | space
  | right
  | left
  | expandKey
  | collapseKey
  | enter
  | quit
  | esc
  | allKey
  | noneKey
  | reset
  | find (input : String)
  | other

/-- `InteractiveSelector._handle_key` (lines 142-217).  Returns the mutated
state and the boolean the Python method returns (`False` terminates the
loop). -/
def handleKey (st : SelectorState) (k : Key) : SelectorState × Bool :=
  let visibleNodes := getVisibleNodes st.tree
  let totalPages := totalPagesOf st
  match k with
  | Key.up =>
    if 0 < st.currentPos then
      let p := st.currentPos - 1
      let pg := if p < st.currentPage * st.pageSize
        then st.currentPage - 1 else st.currentPage
      ({ st with currentPos := p, currentPage := pg }, true)
    else (st, true)
  | Key.down =>
    if st.currentPos < visibleNodes.length - 1 then
      let p := st.currentPos + 1
      let pg := if (st.currentPage + 1) * st.pageSize ≤ p
        then min (totalPages - 1) (st.currentPage + 1) else st.currentPage
      ({ st with currentPos := p, currentPage := pg }, true)
    else (st, true)
  | Key.space =>
    if st.currentPos < visibleNodes.length then
      ({ st with tree := modifyVisibleAt st.tree st.currentPos activateNode }, true)
    else (st, true)
  | Key.right =>
    if st.currentPos < visibleNodes.length then
      ({ st with tree := modifyVisibleAt st.tree st.currentPos expandNode }, true)
    else (st, true)
  | Key.left =>
    if st.currentPos < visibleNodes.length then
      ({ st with tree := modifyVisibleAt st.tree st.currentPos collapseNode }, true)
    else (st, true)
  | Key.expandKey => ({ st with tree := expandAll st.tree }, true)
  | Key.collapseKey => ({ st with tree := collapseAll st.tree 0 }, true)
  | Key.enter => (st, false)
  | Key.quit => ({ st with tree := setSelectedRecursive false st.tree }, false)
  | Key.esc =>
    if st.searchTerm ≠ "" then ({ st with searchTerm := "" }, true)
    else ({ st with tree := setSelectedRecursive false st.tree }, false)
  | Key.allKey => ({ st with tree := setSelectedRecursive true st.tree }, true)
  | Key.noneKey => ({ st with tree := setSelectedRecursive false st.tree }, true)
  | Key.reset => ({ st with tree := setSelectedRecursive false st.tree }, true)
  | Key.find input => ({ st with searchTerm := input.trim }, true)
  | Key.other => (st, true)

/-- The `while True` loop of `InteractiveSelector.run` (lines 43-50), driven
by a stream of key events: each event is handled in turn; as soon as
`_handle_key` returns `False` the loop ends and `run` returns
`tree_root.get_selected_files()`.  If the stream is exhausted first, the
Python loop would block on input forever, which is modelled as `none`. -/
def runFrom (st : SelectorState) : List Key → Option (List String)
  | [] => Option.none
  | k :: ks =>
    let r := handleKey st k
    if r.2 then runFrom r.1 ks else some (getSelectedFiles r.1.tree)

/-! ## Concrete instances used in counterexamples and witnesses -/

/-- A tree whose root's only child is a `partial` directory: built from the
files `s/a`, `s/b` and with only `s/a` selected. -/
def exTreeNested : TreeNode :=
  TreeNode.dir "r" true [TreeNode.dir "r/s" true
    [TreeNode.file "r/s/a" true, TreeNode.file "r/s/b" false]]

/-- A one-directory, one-file tree with nothing selected. -/
def exTreeSmall : TreeNode :=
  TreeNode.dir "a" true [TreeNode.file "a/x" false]

/-- A session state whose tree has two selected files. -/
def exStateTwoSel : SelectorState :=
  { tree := TreeNode.dir "r" true
      [TreeNode.file "r/a" true, TreeNode.file "r/b" true]
    currentPos := 0
    currentPage := 0
    pageSize := 15
    searchTerm := "" }

/-- A tree with one top-level directory holding sixteen files: expanded, its
visible list has 17 entries, i.e. two pages of 15. -/
def exTreeWide : TreeNode :=
  TreeNode.dir "r" true [TreeNode.dir "r/a" true
    [TreeNode.file "r/a/f01" false, TreeNode.file "r/a/f02" false,
     TreeNode.file "r/a/f03" false, TreeNode.file "r/a/f04" false,
     TreeNode.file "r/a/f05" false, TreeNode.file "r/a/f06" false,
     TreeNode.file "r/a/f07" false, TreeNode.file "r/a/f08" false,
     TreeNode.file "r/a/f09" false, TreeNode.file "r/a/f10" false,
     TreeNode.file "r/a/f11" false, TreeNode.file "r/a/f12" false,
     TreeNode.file "r/a/f13" false, TreeNode.file "r/a/f14" false,
     TreeNode.file "r/a/f15" false, TreeNode.file "r/a/f16" false]]

/-- A reachable session state on `exTreeWide`: sixteen `DOWN` presses from
the initial state put the cursor at visible index 16 on page 1. -/
def exStateWide : SelectorState :=
  { tree := exTreeWide
    currentPos := 16
    currentPage := 1
    pageSize := 15
    searchTerm := "" }

/-- The state after a collapse-all key in `exStateWide`. -/
def exStateWideAfter : SelectorState := (handleKey exStateWide Key.collapseKey).1

/-- A root with a single directory child holding one file, everything
expanded. -/
def exTreeDeep : TreeNode :=
  TreeNode.dir "r" true [TreeNode.dir "r/a" true [TreeNode.file "r/a/f.py" false]]

/-! ## Lemmas about the selection state -/

/-- `hasSelFileList` is false exactly when no member has a selected file. -/
theorem hasSelFileList_eq_false_iff (cs : List TreeNode) :
    hasSelFileList cs = false ↔ ∀ c ∈ cs, hasSelFile c = false := by
  induction cs with
  | nil => simp [hasSelFileList]
  | cons c cs ih => simp [hasSelFileList, ih]

/-- Under the none-iff-no-selected-file reading of children, the
"contributing" count of `get_selection_state` counts the children having at
least one selected descendant file. -/
theorem contribCount_eq_countP (cs : List TreeNode)
    (h : ∀ c ∈ cs, (selState c = SelState.sNone ↔ hasSelFile c = false)) :
    contribCount cs = cs.countP (fun c => hasSelFile c) := by
  induction cs with
  | nil => rfl
  | cons c cs ih =>
    have hc := h c (by simp)
    have hcs := ih (fun d hd => h d (by simp [hd]))
    simp only [contribCount, List.countP_cons, hcs]
    cases hv : hasSelFile c with
    | false =>
      have hn : selState c = SelState.sNone := hc.mpr hv
      rw [hn]
      simp
    | true =>
      have hor : selState c = SelState.sAll ∨ selState c = SelState.sPart := by
        cases hs : selState c with
        | sAll => exact Or.inl rfl
        | sNone =>
          rw [hc.mp hs] at hv
          exact absurd hv (by simp)
        | sPart => exact Or.inr rfl
      rw [if_pos hor]
      simp [Nat.add_comm]

/-- A node's selection state is `'none'` exactly when no descendant file is
selected. -/
theorem selState_eq_sNone_iff :
    ∀ t, (selState t = SelState.sNone ↔ hasSelFile t = false) := by
  intro t
  induction t using TreeNode.myrec with
  | hf p s => cases s <;> simp [selState, hasSelFile]
  | hd p e cs ih =>
    have hk := contribCount_eq_countP cs ih
    simp only [selState, hasSelFile]
    rcases Nat.eq_zero_or_pos cs.length with h0 | hpos
    · have hnil : cs = [] := List.length_eq_zero.mp h0
      subst hnil
      simp [hasSelFileList]
    · rw [if_neg (by omega)]
      rw [hasSelFileList_eq_false_iff]
      simp only [hk]
      by_cases hz : cs.countP (fun c => hasSelFile c) = 0
      · rw [if_pos hz]
        rw [List.countP_eq_zero] at hz
        simp only [Bool.not_eq_true] at hz
        exact ⟨fun _ => hz, fun _ => rfl⟩
      · rw [if_neg hz]
        rw [List.countP_eq_zero] at hz
        push_neg at hz
        obtain ⟨c, hcmem, hcsel⟩ := hz
        have hnall : ¬ ∀ d ∈ cs, hasSelFile d = false := by
          intro hall
          rw [hall c hcmem] at hcsel
          exact Bool.false_ne_true hcsel
        split
        · simp [hnall]
        · simp [hnall]

/-- A directory's state is `'all'` exactly when it has children and each of
its immediate children has at least one selected descendant file. -/
theorem selState_dir_eq_sAll_iff (p : String) (e : Bool) (cs : List TreeNode) :
    selState (TreeNode.dir p e cs) = SelState.sAll ↔
      (cs ≠ [] ∧ ∀ c ∈ cs, hasSelFile c = true) := by
  have hk := contribCount_eq_countP cs (fun c _ => selState_eq_sNone_iff c)
  simp only [selState, hk]
  by_cases h0 : cs.length = 0
  · have hnil : cs = [] := List.length_eq_zero.mp h0
    subst hnil
    simp
  · rw [if_neg h0]
    by_cases hz : cs.countP (fun c => hasSelFile c) = 0
    · rw [if_pos hz]
      rw [List.countP_eq_zero] at hz
      constructor
      · intro hcontra
        exact absurd hcontra (by simp)
      · rintro ⟨hne, hall⟩
        obtain ⟨c, hc⟩ := List.exists_mem_of_ne_nil cs hne
        exact absurd (hall c hc) (by simpa using hz c hc)
    · rw [if_neg hz]
      by_cases hl : cs.countP (fun c => hasSelFile c) = cs.length
      · rw [if_pos hl]
        rw [List.countP_eq_length] at hl
        simp only [true_iff]
        exact ⟨fun hnil => h0 (by simp [hnil]), hl⟩
      · rw [if_neg hl]
        rw [List.countP_eq_length] at hl
        constructor
        · intro hcontra
          exact absurd hcontra (by simp)
        · rintro ⟨-, hall⟩
          exact absurd hall hl

/-- A directory's state is `'partial'` exactly when some descendant file is
selected but some immediate child has no selected descendant file. -/
theorem selState_dir_eq_sPart_iff (p : String) (e : Bool) (cs : List TreeNode) :
    selState (TreeNode.dir p e cs) = SelState.sPart ↔
      (hasSelFile (TreeNode.dir p e cs) = true ∧ ∃ c ∈ cs, hasSelFile c = false) := by
  have h1 := selState_eq_sNone_iff (TreeNode.dir p e cs)
  have h2 := selState_dir_eq_sAll_iff p e cs
  constructor
  · intro hp
    have hsel : hasSelFile (TreeNode.dir p e cs) = true := by
      cases hv : hasSelFile (TreeNode.dir p e cs) with
      | false =>
        rw [h1.mpr hv] at hp
        exact absurd hp (by simp)
      | true => rfl
    refine ⟨hsel, ?_⟩
    by_contra hno
    push_neg at hno
    have hall : cs ≠ [] ∧ ∀ c ∈ cs, hasSelFile c = true := by
      constructor
      · intro hnil
        subst hnil
        simp [hasSelFile, hasSelFileList] at hsel
      · intro c hc
        cases hv : hasSelFile c with
        | false => exact absurd hv (hno c hc)
        | true => rfl
    rw [h2.mpr hall] at hp
    exact absurd hp (by simp)
  · rintro ⟨hsel, c, hcmem, hcf⟩
    cases hst : selState (TreeNode.dir p e cs) with
    | sNone =>
      rw [h1.mp hst] at hsel
      exact absurd hsel (by simp)
    | sAll =>
      have := (h2.mp hst).2 c hcmem
      rw [hcf] at this
      exact absurd this (by simp)
    | sPart => rfl

/-! ## Lemmas about recursive selection -/

/-- `setSelList` is the pointwise map of `setSelectedRecursive`. -/
theorem setSelList_eq_map (b : Bool) (cs : List TreeNode) :
    setSelList b cs = cs.map (setSelectedRecursive b) := by
  induction cs with
  | nil => rfl
  | cons c cs ih => simp [setSelList, ih]

/-- `allFilesAreList` holds exactly when it holds of every member. -/
theorem allFilesAreList_eq_true_iff (b : Bool) (cs : List TreeNode) :
    allFilesAreList b cs = true ↔ ∀ c ∈ cs, allFilesAre b c = true := by
  induction cs with
  | nil => simp [allFilesAreList]
  | cons c cs ih => simp [allFilesAreList, ih]

/-- `dirsNonemptyList` holds exactly when it holds of every member. -/
theorem dirsNonemptyList_eq_true_iff (cs : List TreeNode) :
    dirsNonemptyList cs = true ↔ ∀ c ∈ cs, dirsNonempty c = true := by
  induction cs with
  | nil => simp [dirsNonemptyList]
  | cons c cs ih => simp [dirsNonemptyList, ih]

/-- After `set_selected_recursive(b)`, every file flag equals `b`. -/
theorem allFilesAre_setSelectedRecursive (b : Bool) :
    ∀ t, allFilesAre b (setSelectedRecursive b t) = true := by
  intro t
  induction t using TreeNode.myrec with
  | hf p s => simp [setSelectedRecursive, allFilesAre]
  | hd p e cs ih =>
    simp only [setSelectedRecursive, allFilesAre, setSelList_eq_map]
    rw [allFilesAreList_eq_true_iff]
    intro c hc
    obtain ⟨d, hd, rfl⟩ := List.mem_map.mp hc
    exact ih d hd

/-- The contributing count when every child reports `'none'`. -/
theorem contribCount_eq_zero (cs : List TreeNode)
    (h : ∀ c ∈ cs, selState c = SelState.sNone) : contribCount cs = 0 := by
  induction cs with
  | nil => rfl
  | cons c cs ih =>
    have hc := h c (by simp)
    simp only [contribCount, hc]
    rw [ih (fun d hd => h d (by simp [hd]))]
    simp

/-- The contributing count when every child reports `'all'`. -/
theorem contribCount_eq_length (cs : List TreeNode)
    (h : ∀ c ∈ cs, selState c = SelState.sAll) : contribCount cs = cs.length := by
  induction cs with
  | nil => rfl
  | cons c cs ih =>
    have hc := h c (by simp)
    simp only [contribCount, hc]
    rw [ih (fun d hd => h d (by simp [hd]))]
    simp [Nat.add_comm]

/-- After `set_selected_recursive(False)` the state of every node is
`'none'`. -/
theorem selState_setSelectedRecursive_false :
    ∀ t, selState (setSelectedRecursive false t) = SelState.sNone := by
  intro t
  induction t using TreeNode.myrec with
  | hf p s => simp [setSelectedRecursive, selState]
  | hd p e cs ih =>
    simp only [setSelectedRecursive, selState, setSelList_eq_map]
    have hz : contribCount (cs.map (setSelectedRecursive false)) = 0 :=
      contribCount_eq_zero _ (by
        intro c hc
        obtain ⟨d, hd, rfl⟩ := List.mem_map.mp hc
        exact ih d hd)
    by_cases h0 : (cs.map (setSelectedRecursive false)).length = 0
    · rw [if_pos h0]
    · rw [if_neg h0]
      simp [hz]

/-- After `set_selected_recursive(True)` the state of every node of a tree
whose directories all have children is `'all'`. -/
theorem selState_setSelectedRecursive_true :
    ∀ t, dirsNonempty t = true → selState (setSelectedRecursive true t) = SelState.sAll := by
  intro t
  induction t using TreeNode.myrec with
  | hf p s => intro _; simp [setSelectedRecursive, selState]
  | hd p e cs ih =>
    intro hne
    simp only [dirsNonempty, Bool.and_eq_true] at hne
    obtain ⟨hcsne, hlist⟩ := hne
    have hmem := (dirsNonemptyList_eq_true_iff cs).mp hlist
    have hlen0 : cs.length ≠ 0 := by
      intro h
      rw [List.length_eq_zero.mp h] at hcsne
      simp [List.isEmpty] at hcsne
    have hall : contribCount (cs.map (setSelectedRecursive true))
        = (cs.map (setSelectedRecursive true)).length :=
      contribCount_eq_length _ (by
        intro c hc
        obtain ⟨d, hd, rfl⟩ := List.mem_map.mp hc
        exact ih d hd (hmem d hd))
    have hne0 : (cs.map (setSelectedRecursive true)).length ≠ 0 := by
      simpa using hlen0
    have hc0 : contribCount (cs.map (setSelectedRecursive true)) ≠ 0 := by
      rw [hall]
      exact hne0
    simp only [setSelectedRecursive, selState, setSelList_eq_map]
    simp only [hall]
    rw [if_neg hne0, if_neg hne0]
    simp

/-- A subtree with no selected descendant file contributes no selected
files. -/
theorem getSelFilesList_eq_nil (cs : List TreeNode)
    (h : ∀ c ∈ cs, hasSelFile c = false → getSelectedFiles c = [])
    (hall : ∀ c ∈ cs, hasSelFile c = false) : getSelFilesList cs = [] := by
  induction cs with
  | nil => rfl
  | cons c cs ih =>
    simp only [getSelFilesList]
    rw [h c (by simp) (hall c (by simp)),
      ih (fun d hd => h d (by simp [hd])) (fun d hd => hall d (by simp [hd]))]
    rfl

/-- A tree with no selected descendant file extracts no files. -/
theorem getSelectedFiles_eq_nil :
    ∀ t, hasSelFile t = false → getSelectedFiles t = [] := by
  intro t
  induction t using TreeNode.myrec with
  | hf p s => intro h; simp [hasSelFile] at h; simp [getSelectedFiles, h]
  | hd p e cs ih =>
    intro h
    simp only [hasSelFile] at h
    exact getSelFilesList_eq_nil cs ih ((hasSelFileList_eq_false_iff cs).mp h)

/-! ## Claim C1: tri-state consistency -/

/-- **C1, counterexample.**  In `exTreeNested` — a root whose only child
directory `r/s` holds a selected file `r/s/a` and an unselected file
`r/s/b` — `get_selection_state` on the root returns `'all'` although a
descendant file is unselected.  This refutes "`state(dir) = 'all'` iff every
descendant file is selected": the code counts the `'partial'` child `r/s` as
contributing, and all (one of one) children contribute. -/
theorem selState_all_without_all_files_selected :
    selState exTreeNested = SelState.sAll ∧ allFilesAre true exTreeNested = false :=
  ⟨by decide, by decide⟩

/-- **C1, amended.**  For every directory: the state is `'none'` iff no
descendant file is selected (so a directory with zero children reports
`'none'`); the state is `'all'` iff the directory has children and every
*immediate child* has at least one selected descendant file — not, as the
claim stated, iff every descendant file is selected; otherwise the state is
`'partial'`.  Being a characterisation of `selState` for arbitrary trees, it
holds after every mutating operation of the model. -/
theorem tristate_consistency_amended (p : String) (e : Bool) (cs : List TreeNode) :
    (selState (TreeNode.dir p e cs) = SelState.sNone ↔
      hasSelFile (TreeNode.dir p e cs) = false)
  ∧ (selState (TreeNode.dir p e cs) = SelState.sAll ↔
      (cs ≠ [] ∧ ∀ c ∈ cs, hasSelFile c = true))
  ∧ (selState (TreeNode.dir p e cs) = SelState.sPart ↔
      (hasSelFile (TreeNode.dir p e cs) = true ∧ ∃ c ∈ cs, hasSelFile c = false)) :=
  ⟨selState_eq_sNone_iff (TreeNode.dir p e cs),
   selState_dir_eq_sAll_iff p e cs,
   selState_dir_eq_sPart_iff p e cs⟩

/-! ## Claim C2: toggle on activate -/

/-- **C2.**  Activating a node (the `SPACE` handler's action on the node
under the cursor) whose aggregated state is `'none'` or `'partial'` performs
`set_selected_recursive(True)`, after which every descendant file is
selected and the node's state is `'all'`; activating a node whose state is
`'all'` performs `set_selected_recursive(False)`, after which no descendant
file is selected and the state is `'none'`.  The hypothesis — every
directory in the subtree has at least one child — holds for all trees built
by `_build_file_tree`. -/
theorem toggle_on_activate (t : TreeNode) (hne : dirsNonempty t = true) :
    ((selState t = SelState.sNone ∨ selState t = SelState.sPart) →
      activateNode t = setSelectedRecursive true t
      ∧ allFilesAre true (activateNode t) = true
      ∧ selState (activateNode t) = SelState.sAll)
  ∧ (selState t = SelState.sAll →
      activateNode t = setSelectedRecursive false t
      ∧ allFilesAre false (activateNode t) = true
      ∧ selState (activateNode t) = SelState.sNone) := by
  cases t with
  | file p s =>
    cases s with
    | false =>
      constructor
      · intro _
        refine ⟨rfl, ?_, ?_⟩ <;> simp [activateNode, allFilesAre, selState]
      · intro h
        simp [selState] at h
    | true =>
      constructor
      · intro h
        simp [selState] at h
      · intro _
        refine ⟨rfl, ?_, ?_⟩ <;> simp [activateNode, allFilesAre, selState]
  | dir p e cs =>
    constructor
    · intro h
      have hbne : (selState (TreeNode.dir p e cs) != SelState.sAll) = true := by
        rcases h with h | h <;> simp [h]
      simp only [activateNode, hbne]
      exact ⟨trivial, allFilesAre_setSelectedRecursive true _,
        selState_setSelectedRecursive_true _ hne⟩
    · intro h
      have hbne : (selState (TreeNode.dir p e cs) != SelState.sAll) = false := by
        simp [h]
      simp only [activateNode, hbne]
      exact ⟨trivial, allFilesAre_setSelectedRecursive false _,
        selState_setSelectedRecursive_false _⟩

/-- **C2, witness.**  On the concrete tree `exTreeSmall` (one directory, one
unselected file, state `'none'`), activating selects the whole subtree and
yields state `'all'`. -/
theorem toggle_on_activate_witness :
    activateNode exTreeSmall = setSelectedRecursive true exTreeSmall
    ∧ allFilesAre true (activateNode exTreeSmall) = true
    ∧ selState (activateNode exTreeSmall) = SelState.sAll :=
  (toggle_on_activate exTreeSmall (by decide)).1 (Or.inl (by decide))

/-! ## Lemmas about reconciliation -/

/-- `applySavedList` is the pointwise map of `applySaved`. -/
theorem applySavedList_eq_map (files folders : List String) (cs : List TreeNode) :
    applySavedList files folders cs = cs.map (applySaved files folders) := by
  induction cs with
  | nil => rfl
  | cons c cs ih => simp [applySavedList, ih]

/-- `applySavedSpecList` is the pointwise map of `applySavedSpec`. -/
theorem applySavedSpecList_eq_map (files folders : List String) (anc : Bool)
    (cs : List TreeNode) :
    applySavedSpecList files folders anc cs = cs.map (applySavedSpec files folders anc) := by
  induction cs with
  | nil => rfl
  | cons c cs ih => simp [applySavedSpecList, ih]

/-- Below a directory matched in the saved folder set, the specification
reading selects everything, exactly as `set_selected_recursive(True)`. -/
theorem applySavedSpec_anc_true (files folders : List String) :
    ∀ t, applySavedSpec files folders true t = setSelectedRecursive true t := by
  intro t
  induction t using TreeNode.myrec with
  | hf p s => simp [applySavedSpec, setSelectedRecursive]
  | hd p e cs ih =>
    simp only [applySavedSpec, setSelectedRecursive, Bool.true_or,
      applySavedSpecList_eq_map, setSelList_eq_map]
    congr 1
    exact List.map_congr_left ih

/-- `_apply_saved_selection` agrees with its specification reading. -/
theorem applySaved_eq_spec (files folders : List String) :
    ∀ t, applySaved files folders t = applySavedSpec files folders false t := by
  intro t
  induction t using TreeNode.myrec with
  | hf p s =>
    by_cases hp : p ∈ files <;> simp [applySaved, applySavedSpec, hp]
  | hd p e cs ih =>
    by_cases hp : p ∈ folders
    · have h1 : applySaved files folders (TreeNode.dir p e cs)
          = TreeNode.dir p e (setSelList true cs) := by
        simp [applySaved, hp]
      have h2 : applySavedSpec files folders false (TreeNode.dir p e cs)
          = TreeNode.dir p e (applySavedSpecList files folders true cs) := by
        simp [applySavedSpec, hp]
      rw [h1, h2, applySavedSpecList_eq_map, setSelList_eq_map]
      congr 1
      exact List.map_congr_left
        (fun c _ => (applySavedSpec_anc_true files folders c).symm)
    · have h1 : applySaved files folders (TreeNode.dir p e cs)
          = TreeNode.dir p e (applySavedList files folders cs) := by
        simp [applySaved, hp]
      have h2 : applySavedSpec files folders false (TreeNode.dir p e cs)
          = TreeNode.dir p e (applySavedSpecList files folders false cs) := by
        simp [applySavedSpec, hp]
      rw [h1, h2, applySavedSpecList_eq_map, applySavedList_eq_map]
      congr 1
      exact List.map_congr_left ih

/-- `set_selected_recursive` is idempotent. -/
theorem setSelectedRecursive_idem (b : Bool) :
    ∀ t, setSelectedRecursive b (setSelectedRecursive b t) = setSelectedRecursive b t := by
  intro t
  induction t using TreeNode.myrec with
  | hf p s => rfl
  | hd p e cs ih =>
    simp only [setSelectedRecursive, setSelList_eq_map, List.map_map]
    congr 1
    exact List.map_congr_left (fun c hc => ih c hc)

/-- `_apply_saved_selection` is idempotent. -/
theorem applySaved_idem (files folders : List String) :
    ∀ t, applySaved files folders (applySaved files folders t)
      = applySaved files folders t := by
  intro t
  induction t using TreeNode.myrec with
  | hf p s =>
    by_cases hp : p ∈ files <;> simp [applySaved, hp]
  | hd p e cs ih =>
    by_cases hp : p ∈ folders
    · simp only [applySaved, if_pos hp, setSelList_eq_map, List.map_map]
      congr 1
      exact List.map_congr_left (fun c _ => setSelectedRecursive_idem true c)
    · simp only [applySaved, if_neg hp, applySavedList_eq_map, List.map_map]
      congr 1
      exact List.map_congr_left (fun c hc => ih c hc)

/-- Per-child `Forall₂` relations between file-flag lists concatenate. -/
theorem fileFlagsList_forall2 {R : (String × Bool) → (String × Bool) → Prop}
    (f : TreeNode → TreeNode) (cs : List TreeNode)
    (h : ∀ c ∈ cs, List.Forall₂ R (fileFlags c) (fileFlags (f c))) :
    List.Forall₂ R (fileFlagsList cs) (fileFlagsList (cs.map f)) := by
  induction cs with
  | nil => exact List.Forall₂.nil
  | cons c cs ih =>
    simp only [List.map_cons, fileFlagsList]
    exact List.rel_append (h c (by simp)) (ih (fun d hd => h d (by simp [hd])))

/-- `set_selected_recursive(True)` keeps every file's path and never turns a
selected flag off. -/
theorem fileFlags_setSelectedRecursive_true :
    ∀ t, List.Forall₂ (fun a b => a.1 = b.1 ∧ (a.2 = true → b.2 = true))
      (fileFlags t) (fileFlags (setSelectedRecursive true t)) := by
  intro t
  induction t using TreeNode.myrec with
  | hf p s =>
    exact List.Forall₂.cons ⟨rfl, fun _ => rfl⟩ List.Forall₂.nil
  | hd p e cs ih =>
    simp only [setSelectedRecursive, fileFlags, setSelList_eq_map]
    exact fileFlagsList_forall2 _ cs ih

/-- `_apply_saved_selection` keeps every file's path and never turns a
selected flag off. -/
theorem fileFlags_applySaved (files folders : List String) :
    ∀ t, List.Forall₂ (fun a b => a.1 = b.1 ∧ (a.2 = true → b.2 = true))
      (fileFlags t) (fileFlags (applySaved files folders t)) := by
  intro t
  induction t using TreeNode.myrec with
  | hf p s =>
    by_cases hp : p ∈ files
    · simp only [applySaved, if_pos hp]
      exact List.Forall₂.cons ⟨rfl, fun _ => rfl⟩ List.Forall₂.nil
    · simp only [applySaved, if_neg hp]
      exact List.Forall₂.cons ⟨rfl, fun h => h⟩ List.Forall₂.nil
  | hd p e cs ih =>
    by_cases hp : p ∈ folders
    · simp only [applySaved, if_pos hp, fileFlags, setSelList_eq_map]
      exact fileFlagsList_forall2 _ cs
        (fun c _ => fileFlags_setSelectedRecursive_true c)
    · simp only [applySaved, if_neg hp, fileFlags, applySavedList_eq_map]
      exact fileFlagsList_forall2 _ cs ih

/-! ## Claim C3: reconciliation precedence -/

/-- **C3.**  Folder entries dominate file entries in reconciliation.
First conjunct: `_apply_saved_selection` equals its specification reading —
a file ends selected iff some ancestor directory's path is in the saved
folder set, or its own path is in the saved file set, or it was selected
already; in particular every descendant file of a matched directory is
selected whether or not it appears in the saved file set.  Second conjunct:
at a directory whose path is in the folder set the result is literally
`set_selected_recursive(True)` of the subtree — independent of the saved
file set, so per-file entries beneath it are never consulted — and every
descendant file is selected afterwards. -/
theorem reconciliation_precedence (files folders : List String) :
    (∀ t, applySaved files folders t = applySavedSpec files folders false t)
  ∧ (∀ p e cs, p ∈ folders →
      applySaved files folders (TreeNode.dir p e cs)
        = TreeNode.dir p e (setSelList true cs)
      ∧ allFilesAre true (applySaved files folders (TreeNode.dir p e cs)) = true) := by
  constructor
  · exact applySaved_eq_spec files folders
  · intro p e cs hp
    constructor
    · simp [applySaved, hp]
    · simp only [applySaved, if_pos hp]
      have h := allFilesAre_setSelectedRecursive true (TreeNode.dir p e cs)
      simpa [setSelectedRecursive, allFilesAre] using h

/-- **C3, witness.**  A saved folder entry `src` with a stale saved file
entry `src/old.txt`: reconciling a tree containing `src/old.txt` (stale) and
`src/new.txt` (added later) selects every file under `src`. -/
theorem reconciliation_precedence_witness :
    applySaved ["src/old.txt"] ["src"] (TreeNode.dir "src" true
        [TreeNode.file "src/old.txt" false, TreeNode.file "src/new.txt" false])
      = TreeNode.dir "src" true (setSelList true
        [TreeNode.file "src/old.txt" false, TreeNode.file "src/new.txt" false])
    ∧ allFilesAre true (applySaved ["src/old.txt"] ["src"] (TreeNode.dir "src" true
        [TreeNode.file "src/old.txt" false, TreeNode.file "src/new.txt" false])) = true :=
  (reconciliation_precedence ["src/old.txt"] ["src"]).2 "src" true
    [TreeNode.file "src/old.txt" false, TreeNode.file "src/new.txt" false] (by decide)

/-! ## Claim C10: reconciliation is monotone and idempotent -/

/-- **C10.**  `_apply_saved_selection` never deselects: the file-flag list
keeps its paths positionally, flags only go from `false` to `true`, and
applying the operation twice equals applying it once. -/
theorem reconciliation_monotone_idempotent (files folders : List String) (t : TreeNode) :
    List.Forall₂ (fun a b => a.1 = b.1 ∧ (a.2 = true → b.2 = true))
      (fileFlags t) (fileFlags (applySaved files folders t))
  ∧ applySaved files folders (applySaved files folders t) = applySaved files folders t :=
  ⟨fileFlags_applySaved files folders t, applySaved_idem files folders t⟩

/-! ## Claim C5: cancel clears state -/

/-- After `set_selected_recursive(False)` no descendant file is selected. -/
theorem hasSelFile_setSelectedRecursive_false (t : TreeNode) :
    hasSelFile (setSelectedRecursive false t) = false :=
  (selState_eq_sNone_iff _).mp (selState_setSelectedRecursive_false t)

/-- After `set_selected_recursive(False)` the extraction is empty. -/
theorem getSelectedFiles_setSelectedRecursive_false (t : TreeNode) :
    getSelectedFiles (setSelectedRecursive false t) = [] :=
  getSelectedFiles_eq_nil _ (hasSelFile_setSelectedRecursive_false t)

/-- **C5.**  From every session state, `QUIT` — and `ESC` when no search
term is active — runs `set_selected_recursive(False)` on the root (so every
file's `selected` flag is `false`), makes `_handle_key` return `False`, and
the loop then terminates with `run()` returning the empty list. -/
theorem cancel_clears_state (st : SelectorState) (ks : List Key) :
    (handleKey st Key.quit).2 = false
  ∧ allFilesAre false (handleKey st Key.quit).1.tree = true
  ∧ runFrom st (Key.quit :: ks) = some []
  ∧ (st.searchTerm = "" →
      (handleKey st Key.esc).2 = false
      ∧ allFilesAre false (handleKey st Key.esc).1.tree = true
      ∧ runFrom st (Key.esc :: ks) = some []) := by
  have hq : handleKey st Key.quit
      = ({ st with tree := setSelectedRecursive false st.tree }, false) := rfl
  refine ⟨by rw [hq], ?_, ?_, ?_⟩
  · rw [hq]
    exact allFilesAre_setSelectedRecursive false st.tree
  · simp [runFrom, hq, getSelectedFiles_setSelectedRecursive_false]
  · intro hs
    have he : handleKey st Key.esc
        = ({ st with tree := setSelectedRecursive false st.tree }, false) := by
      simp [handleKey, hs]
    refine ⟨by rw [he], ?_, ?_⟩
    · rw [he]
      exact allFilesAre_setSelectedRecursive false st.tree
    · simp [runFrom, he, getSelectedFiles_setSelectedRecursive_false]

/-- **C5, witness.**  In the concrete state `exStateTwoSel` (two selected
files, no active search), `ESC` cancels: the handler terminates the loop,
every file flag is cleared, and the run returns the empty list. -/
theorem cancel_clears_state_witness :
    (handleKey exStateTwoSel Key.esc).2 = false
    ∧ allFilesAre false (handleKey exStateTwoSel Key.esc).1.tree = true
    ∧ runFrom exStateTwoSel [Key.esc] = some [] :=
  (cancel_clears_state exStateTwoSel []).2.2.2 rfl

/-! ## Claim C7: expand-all and collapse-all -/

/-- `allDirsExpandedList` holds exactly when it holds of every member. -/
theorem allDirsExpandedList_eq_true_iff (cs : List TreeNode) :
    allDirsExpandedList cs = true ↔ ∀ c ∈ cs, allDirsExpanded c = true := by
  induction cs with
  | nil => simp [allDirsExpandedList]
  | cons c cs ih => simp [allDirsExpandedList, ih]

/-- `expandAllList` is the pointwise map of `expandAll`. -/
theorem expandAllList_eq_map (cs : List TreeNode) :
    expandAllList cs = cs.map expandAll := by
  induction cs with
  | nil => rfl
  | cons c cs ih => simp [expandAllList, ih]

/-- `collapseAllList` is the pointwise map of `collapseAll`. -/
theorem collapseAllList_eq_map (cs : List TreeNode) (d : Nat) :
    collapseAllList cs d = cs.map (fun c => collapseAll c d) := by
  induction cs with
  | nil => rfl
  | cons c cs ih => simp [collapseAllList, ih]

/-- `deepCollapsedList` is the pointwise map of `deepCollapsed`. -/
theorem deepCollapsedList_eq_map (cs : List TreeNode) :
    deepCollapsedList cs = cs.map deepCollapsed := by
  induction cs with
  | nil => rfl
  | cons c cs ih => simp [deepCollapsedList, ih]

/-- `_expand_all` expands every directory. -/
theorem allDirsExpanded_expandAll : ∀ t, allDirsExpanded (expandAll t) = true := by
  intro t
  induction t using TreeNode.myrec with
  | hf p s => rfl
  | hd p e cs ih =>
    simp only [expandAll, allDirsExpanded, expandAllList_eq_map, Bool.true_and]
    rw [allDirsExpandedList_eq_true_iff]
    intro c hc
    obtain ⟨d, hd, rfl⟩ := List.mem_map.mp hc
    exact ih d hd

/-- Below the root, `_collapse_all` collapses every directory. -/
theorem collapseAll_succ : ∀ t, ∀ d : Nat, collapseAll t (d + 1) = deepCollapsed t := by
  intro t
  induction t using TreeNode.myrec with
  | hf p s => intro d; rfl
  | hd p e cs ih =>
    intro d
    simp only [collapseAll, deepCollapsed, collapseAllList_eq_map,
      deepCollapsedList_eq_map, Nat.succ_ne_zero]
    congr 1
    exact List.map_congr_left (fun c hc => ih c hc (d + 1))

/-- At the root, `_collapse_all` keeps the root expanded and collapses
everything below it. -/
theorem collapseAll_zero (t : TreeNode) : collapseAll t 0 = collapseAllSpec t := by
  cases t with
  | file p s => rfl
  | dir p e cs =>
    simp only [collapseAll, collapseAllSpec, collapseAllList_eq_map,
      deepCollapsedList_eq_map]
    congr 1
    exact List.map_congr_left (fun c _ => collapseAll_succ c 0)

/-- **C7, counterexample.**  On `exTreeDeep`, collapse-all leaves the root's
immediate directory child `r/a` with `expanded = false`, refuting the
claim's "collapse-all sets expanded = true on the immediate directory
children of the root": depth 0 in the source's recursion is the root itself,
not the top level shown. -/
theorem collapse_all_depth_counterexample :
    collapseAll exTreeDeep 0
      = TreeNode.dir "r" true [TreeNode.dir "r/a" false [TreeNode.file "r/a/f.py" false]]
  ∧ (childrenOf (collapseAll exTreeDeep 0)).map expandedOf = [false]
  ∧ (childrenOf (collapseAll exTreeDeep 0)).map expandedOf ≠ [true] :=
  ⟨rfl, by decide, by decide⟩

/-- **C7, amended.**  Expand-all sets `expanded = true` on every directory.
Collapse-all keeps `expanded = true` on the root only (the directory visited
at recursion depth 0) and sets `expanded = false` on every other directory —
the top level stays visible because the root stays expanded, but the root's
immediate directory children are themselves collapsed. -/
theorem expand_all_collapse_all_amended (t : TreeNode) :
    allDirsExpanded (expandAll t) = true ∧ collapseAll t 0 = collapseAllSpec t :=
  ⟨allDirsExpanded_expandAll t, collapseAll_zero t⟩

/-! ## Claim C9: frame properties of selection and expansion mutations -/

/-- `eraseSelList` is the pointwise map of `eraseSel`. -/
theorem eraseSelList_eq_map (cs : List TreeNode) : eraseSelList cs = cs.map eraseSel := by
  induction cs with
  | nil => rfl
  | cons c cs ih => simp [eraseSelList, ih]

/-- `eraseExpList` is the pointwise map of `eraseExp`. -/
theorem eraseExpList_eq_map (cs : List TreeNode) : eraseExpList cs = cs.map eraseExp := by
  induction cs with
  | nil => rfl
  | cons c cs ih => simp [eraseExpList, ih]

/-- `set_selected_recursive` changes no path, no structure and no `expanded`
flag. -/
theorem eraseSel_setSelectedRecursive (b : Bool) :
    ∀ t, eraseSel (setSelectedRecursive b t) = eraseSel t := by
  intro t
  induction t using TreeNode.myrec with
  | hf p s => rfl
  | hd p e cs ih =>
    simp only [setSelectedRecursive, eraseSel, setSelList_eq_map, eraseSelList_eq_map,
      List.map_map]
    congr 1
    exact List.map_congr_left (fun c hc => ih c hc)

/-- Activation changes no path, no structure and no `expanded` flag. -/
theorem eraseSel_activateNode : ∀ t, eraseSel (activateNode t) = eraseSel t := by
  intro t
  cases t with
  | file p s => rfl
  | dir p e cs => exact eraseSel_setSelectedRecursive _ _

/-- A selection-only mutation of the node at a visible index within a child
list changes no path, structure or `expanded` flag. -/
theorem eraseSelList_modVisList (g : TreeNode → TreeNode) (cs : List TreeNode)
    (h : ∀ c ∈ cs, ∀ i, eraseSel (modVisT g c i) = eraseSel c) :
    ∀ i, eraseSelList (modVisList g cs i) = eraseSelList cs := by
  induction cs with
  | nil => intro i; rfl
  | cons c cs ih =>
    intro i
    simp only [modVisList]
    split
    · simp only [eraseSelList]
      rw [h c (by simp) i]
    · simp only [eraseSelList]
      rw [ih (fun d hd => h d (by simp [hd])) (i - (visSubtrees c).length)]

/-- A selection-only mutation applied at a visible index changes no path,
structure or `expanded` flag. -/
theorem eraseSel_modVisT (g : TreeNode → TreeNode)
    (hg : ∀ n, eraseSel (g n) = eraseSel n) :
    ∀ t, ∀ i, eraseSel (modVisT g t i) = eraseSel t := by
  intro t
  induction t using TreeNode.myrec with
  | hf p s =>
    intro i
    cases i with
    | zero => exact hg _
    | succ j => rfl
  | hd p e cs ih =>
    intro i
    cases i with
    | zero => exact hg _
    | succ j =>
      simp only [modVisT]
      cases e with
      | false => simp
      | true =>
        rw [if_pos rfl]
        simp only [eraseSel]
        rw [eraseSelList_modVisList g cs ih j]

/-- `eraseSel` commutes with `modifyVisibleAt` for selection-only
mutations. -/
theorem eraseSel_modifyVisibleAt (g : TreeNode → TreeNode)
    (hg : ∀ n, eraseSel (g n) = eraseSel n) (t : TreeNode) (i : Nat) :
    eraseSel (modifyVisibleAt t i g) = eraseSel t := by
  cases t with
  | file p s => rfl
  | dir p e cs =>
    simp only [modifyVisibleAt]
    cases e with
    | false => simp
    | true =>
      rw [if_pos rfl]
      simp only [eraseSel]
      rw [eraseSelList_modVisList g cs (fun c _ i => eraseSel_modVisT g hg c i) i]

/-- Single expand/collapse changes no path, structure or selection flag. -/
theorem eraseExp_expandNode : ∀ t, eraseExp (expandNode t) = eraseExp t := by
  intro t
  cases t <;> rfl

/-- Single collapse changes no path, structure or selection flag. -/
theorem eraseExp_collapseNode : ∀ t, eraseExp (collapseNode t) = eraseExp t := by
  intro t
  cases t <;> rfl

/-- Expand-all changes no path, structure or selection flag. -/
theorem eraseExp_expandAll : ∀ t, eraseExp (expandAll t) = eraseExp t := by
  intro t
  induction t using TreeNode.myrec with
  | hf p s => rfl
  | hd p e cs ih =>
    simp only [expandAll, eraseExp, expandAllList_eq_map, eraseExpList_eq_map,
      List.map_map]
    congr 1
    exact List.map_congr_left (fun c hc => ih c hc)

/-- Collapse-all changes no path, structure or selection flag. -/
theorem eraseExp_collapseAll : ∀ t, ∀ d : Nat, eraseExp (collapseAll t d) = eraseExp t := by
  intro t
  induction t using TreeNode.myrec with
  | hf p s => intro d; rfl
  | hd p e cs ih =>
    intro d
    simp only [collapseAll, eraseExp, collapseAllList_eq_map, eraseExpList_eq_map,
      List.map_map]
    congr 1
    exact List.map_congr_left (fun c hc => ih c hc (d + 1))

/-- An expansion-only mutation of the node at a visible index within a child
list changes no path, structure or selection flag. -/
theorem eraseExpList_modVisList (g : TreeNode → TreeNode) (cs : List TreeNode)
    (h : ∀ c ∈ cs, ∀ i, eraseExp (modVisT g c i) = eraseExp c) :
    ∀ i, eraseExpList (modVisList g cs i) = eraseExpList cs := by
  induction cs with
  | nil => intro i; rfl
  | cons c cs ih =>
    intro i
    simp only [modVisList]
    split
    · simp only [eraseExpList]
      rw [h c (by simp) i]
    · simp only [eraseExpList]
      rw [ih (fun d hd => h d (by simp [hd])) (i - (visSubtrees c).length)]

/-- An expansion-only mutation applied at a visible index changes no path,
structure or selection flag. -/
theorem eraseExp_modVisT (g : TreeNode → TreeNode)
    (hg : ∀ n, eraseExp (g n) = eraseExp n) :
    ∀ t, ∀ i, eraseExp (modVisT g t i) = eraseExp t := by
  intro t
  induction t using TreeNode.myrec with
  | hf p s =>
    intro i
    cases i with
    | zero => exact hg _
    | succ j => rfl
  | hd p e cs ih =>
    intro i
    cases i with
    | zero => exact hg _
    | succ j =>
      simp only [modVisT]
      cases e with
      | false => simp
      | true =>
        rw [if_pos rfl]
        simp only [eraseExp]
        rw [eraseExpList_modVisList g cs ih j]

/-- `eraseExp` commutes with `modifyVisibleAt` for expansion-only
mutations. -/
theorem eraseExp_modifyVisibleAt (g : TreeNode → TreeNode)
    (hg : ∀ n, eraseExp (g n) = eraseExp n) (t : TreeNode) (i : Nat) :
    eraseExp (modifyVisibleAt t i g) = eraseExp t := by
  cases t with
  | file p s => rfl
  | dir p e cs =>
    simp only [modifyVisibleAt]
    cases e with
    | false => simp
    | true =>
      rw [if_pos rfl]
      simp only [eraseExp]
      rw [eraseExpList_modVisList g cs (fun c _ i => eraseExp_modVisT g hg c i) i]

/-- **C9.**  Frame property.  Selection mutations — file activate and
directory toggle (the `SPACE` handler), select-all, select-none, reset, and
`set_selected_recursive` itself — leave every node's path, the child lists
and their order, and every `expanded` flag unchanged (their `eraseSel`
image is fixed).  Dually, expansion mutations — single expand/collapse and
the expand-all / collapse-all handlers — leave every `selected` flag and
the tree structure unchanged (their `eraseExp` image is fixed). -/
theorem frame_properties :
    (∀ b t, eraseSel (setSelectedRecursive b t) = eraseSel t)
  ∧ (∀ t, eraseSel (activateNode t) = eraseSel t)
  ∧ (∀ st, eraseSel ((handleKey st Key.space).1.tree) = eraseSel st.tree)
  ∧ (∀ st, eraseSel ((handleKey st Key.allKey).1.tree) = eraseSel st.tree)
  ∧ (∀ st, eraseSel ((handleKey st Key.noneKey).1.tree) = eraseSel st.tree)
  ∧ (∀ st, eraseSel ((handleKey st Key.reset).1.tree) = eraseSel st.tree)
  ∧ (∀ t, eraseExp (expandNode t) = eraseExp t)
  ∧ (∀ t, eraseExp (collapseNode t) = eraseExp t)
  ∧ (∀ st, eraseExp ((handleKey st Key.right).1.tree) = eraseExp st.tree)
  ∧ (∀ st, eraseExp ((handleKey st Key.left).1.tree) = eraseExp st.tree)
  ∧ (∀ st, eraseExp ((handleKey st Key.expandKey).1.tree) = eraseExp st.tree)
  ∧ (∀ st, eraseExp ((handleKey st Key.collapseKey).1.tree) = eraseExp st.tree) := by
  refine ⟨eraseSel_setSelectedRecursive, eraseSel_activateNode, ?_, ?_, ?_, ?_,
    eraseExp_expandNode, eraseExp_collapseNode, ?_, ?_, ?_, ?_⟩
  · intro st
    by_cases h : st.currentPos < (getVisibleNodes st.tree).length <;>
      simp [handleKey, h, eraseSel_modifyVisibleAt activateNode eraseSel_activateNode]
  · intro st
    simp [handleKey, eraseSel_setSelectedRecursive]
  · intro st
    simp [handleKey, eraseSel_setSelectedRecursive]
  · intro st
    simp [handleKey, eraseSel_setSelectedRecursive]
  · intro st
    by_cases h : st.currentPos < (getVisibleNodes st.tree).length <;>
      simp [handleKey, h, eraseExp_modifyVisibleAt expandNode eraseExp_expandNode]
  · intro st
    by_cases h : st.currentPos < (getVisibleNodes st.tree).length <;>
      simp [handleKey, h, eraseExp_modifyVisibleAt collapseNode eraseExp_collapseNode]
  · intro st
    simp [handleKey, eraseExp_expandAll]
  · intro st
    simp [handleKey, eraseExp_collapseAll]

/-! ## Claim C6: cursor and page re-clamping -/

/-- **C6, counterexample.**  In the reachable state `exStateWide` (cursor at
visible index 16, page 1 of a 17-entry visible list), the collapse-all key
shrinks the visible list to a single entry but `_handle_key` does not
re-clamp: afterwards `current_page` is still `1`, which differs from
`clamp(current_page, 0, total_pages - 1) = 0`, and the cursor index `16`
lies outside the visible list's bounds. -/
theorem cursor_page_not_reclamped_counterexample :
    exStateWideAfter.currentPage = 1
  ∧ (getVisibleNodes exStateWideAfter.tree).length = 1
  ∧ totalPagesOf exStateWideAfter = 1
  ∧ exStateWideAfter.currentPage
      ≠ min exStateWideAfter.currentPage (totalPagesOf exStateWideAfter - 1)
  ∧ ¬ (exStateWideAfter.currentPos < (getVisibleNodes exStateWideAfter.tree).length) :=
  ⟨by decide, by decide, by decide, by decide, by decide⟩

/-- **C6, amended.**  Cursor and page are adjusted only by the Move up/down
events: every other key event (activate, expand, collapse, expand-all,
collapse-all, select-all, select-none, reset, confirm, cancel, find, and
unknown keys) leaves `current_pos` and `current_page` unchanged even when it
shrinks the visible list, so the invariant claimed can fail after a
collapse; Move up/down do not change the tree, and they keep a cursor that
was inside the visible list inside it. -/
theorem cursor_page_adjustment_amended (st : SelectorState) (k : Key) :
    ((k ≠ Key.up ∧ k ≠ Key.down) →
      (handleKey st k).1.currentPos = st.currentPos
      ∧ (handleKey st k).1.currentPage = st.currentPage)
  ∧ ((k = Key.up ∨ k = Key.down) →
      (handleKey st k).1.tree = st.tree
      ∧ (st.currentPos < (getVisibleNodes st.tree).length →
          (handleKey st k).1.currentPos < (getVisibleNodes st.tree).length)) := by
  constructor
  · rintro ⟨h1, h2⟩
    cases k with
    | up => exact absurd rfl h1
    | down => exact absurd rfl h2
    | space =>
      by_cases h : st.currentPos < (getVisibleNodes st.tree).length <;>
        simp [handleKey, h]
    | right =>
      by_cases h : st.currentPos < (getVisibleNodes st.tree).length <;>
        simp [handleKey, h]
    | left =>
      by_cases h : st.currentPos < (getVisibleNodes st.tree).length <;>
        simp [handleKey, h]
    | expandKey => simp [handleKey]
    | collapseKey => simp [handleKey]
    | enter => simp [handleKey]
    | quit => simp [handleKey]
    | esc =>
      by_cases h : st.searchTerm = "" <;> simp [handleKey, h]
    | allKey => simp [handleKey]
    | noneKey => simp [handleKey]
    | reset => simp [handleKey]
    | find s => simp [handleKey]
    | other => simp [handleKey]
  · rintro (rfl | rfl)
    · constructor
      · by_cases h : 0 < st.currentPos <;> simp [handleKey, h]
      · intro hlt
        by_cases h : 0 < st.currentPos <;> simp [handleKey, h] <;> omega
    · constructor
      · by_cases h : st.currentPos < (getVisibleNodes st.tree).length - 1 <;>
          simp [handleKey, h]
      · intro hlt
        by_cases h : st.currentPos < (getVisibleNodes st.tree).length - 1 <;>
          simp [handleKey, h] <;> omega

/-- **C6, witness.**  In the concrete state `exStateTwoSel`, collapse-all
leaves cursor and page untouched, while a Move down keeps the in-bounds
cursor in bounds. -/
theorem cursor_page_adjustment_amended_witness :
    ((handleKey exStateTwoSel Key.collapseKey).1.currentPos = exStateTwoSel.currentPos
      ∧ (handleKey exStateTwoSel Key.collapseKey).1.currentPage = exStateTwoSel.currentPage)
    ∧ (handleKey exStateTwoSel Key.down).1.tree = exStateTwoSel.tree
    ∧ (handleKey exStateTwoSel Key.down).1.currentPos
        < (getVisibleNodes exStateTwoSel.tree).length :=
  ⟨(cursor_page_adjustment_amended exStateTwoSel Key.collapseKey).1
      ⟨fun h => Key.noConfusion h, fun h => Key.noConfusion h⟩,
   ((cursor_page_adjustment_amended exStateTwoSel Key.down).2 (Or.inr rfl)).1,
   ((cursor_page_adjustment_amended exStateTwoSel Key.down).2 (Or.inr rfl)).2 (by decide)⟩

/-! ## Claim C8: extraction ordering -/

/-- `applyFlagsList` is the pointwise map of `applyFlags`. -/
theorem applyFlagsList_eq_map (f : String → Bool) (cs : List TreeNode) :
    applyFlagsList f cs = cs.map (applyFlags f) := by
  induction cs with
  | nil => rfl
  | cons c cs ih => simp [applyFlagsList, ih]

/-- Extraction after installing a selection assignment is the filtered
pre-order path list, child-list version. -/
theorem getSelFilesList_applyFlagsList (f : String → Bool) (cs : List TreeNode)
    (h : ∀ c ∈ cs, getSelectedFiles (applyFlags f c) = (preorderFilePaths c).filter f) :
    getSelFilesList (applyFlagsList f cs) = (preorderFilePathsList cs).filter f := by
  induction cs with
  | nil => rfl
  | cons c cs ih =>
    simp only [applyFlagsList, getSelFilesList, preorderFilePathsList, List.filter_append]
    rw [h c (by simp), ih (fun d hd => h d (by simp [hd]))]

/-- Extraction after installing a selection assignment `f` yields exactly
the pre-order file paths that `f` selects — so the output order is the
tree's stable pre-order, independent of how the flags came to be set. -/
theorem getSelectedFiles_applyFlags (f : String → Bool) :
    ∀ t, getSelectedFiles (applyFlags f t) = (preorderFilePaths t).filter f := by
  intro t
  induction t using TreeNode.myrec with
  | hf p s =>
    simp only [applyFlags, getSelectedFiles, preorderFilePaths, List.filter]
    cases f p <;> simp
  | hd p e cs ih =>
    simp only [applyFlags, getSelectedFiles, preorderFilePaths]
    exact getSelFilesList_applyFlagsList f cs ih

/-- `sortTree` keeps each node's path. -/
theorem pathOf_sortTree (t : TreeNode) : pathOf (sortTree t) = pathOf t := by
  cases t <;> simp [sortTree, pathOf]

/-- `sortTree` keeps each node's kind. -/
theorem isFileB_sortTree (t : TreeNode) : isFileB (sortTree t) = isFileB t := by
  cases t <;> simp [sortTree, isFileB]

/-- `sortTree` does not change sort keys. -/
theorem nodeLe_sortTree (a b : TreeNode) : nodeLe (sortTree a) (sortTree b) = nodeLe a b := by
  simp [nodeLe, nodeName, pathOf_sortTree, isFileB_sortTree]

/-- The sort-key comparison is total. -/
theorem nodeLe_total (a b : TreeNode) : (nodeLe a b || nodeLe b a) = true := by
  simp only [nodeLe]
  cases ha : isFileB a <;> cases hb : isFileB b <;> simp <;>
    rcases le_total ((nodeName a).map Char.toLower) ((nodeName b).map Char.toLower)
      with h | h <;> simp [h]

/-- The sort-key comparison is transitive. -/
theorem nodeLe_trans (a b c : TreeNode)
    (hab : nodeLe a b = true) (hbc : nodeLe b c = true) : nodeLe a c = true := by
  cases ha : isFileB a <;> cases hb : isFileB b <;> cases hc : isFileB c <;>
    simp [nodeLe, ha, hb, hc] at hab hbc ⊢ <;>
    try exact le_trans hab hbc

/-- `sortTreeList` is the pointwise map of `sortTree`. -/
theorem sortTreeList_eq_map (cs : List TreeNode) : sortTreeList cs = cs.map sortTree := by
  induction cs with
  | nil => simp [sortTreeList]
  | cons c cs ih => simp [sortTreeList, ih]

/-- After `_sort_tree_children`, every directory's child list is sorted by
the (is-file, lower-cased name) key. -/
theorem childrenSorted_sortTree : ∀ t, ChildrenSorted (sortTree t) := by
  intro t
  induction t using TreeNode.myrec with
  | hf p s =>
    simp only [sortTree]
    exact ChildrenSorted.file p s
  | hd p e cs ih =>
    have heq : sortTree (TreeNode.dir p e cs)
        = TreeNode.dir p e ((cs.mergeSort nodeLe).map sortTree) := by
      simp [sortTree, sortTreeList_eq_map]
    rw [heq]
    refine ChildrenSorted.dir p e _ ?_ ?_
    · refine List.Pairwise.map sortTree ?_
        (List.sorted_mergeSort nodeLe_trans nodeLe_total cs)
      intro a b hab
      rw [nodeLe_sortTree]
      exact hab
    · intro c' hc'
      obtain ⟨c, hc, rfl⟩ := List.mem_map.mp hc'
      exact ih c ((List.mergeSort_perm cs nodeLe).mem_iff.mp hc)

/-- **C8.**  Extraction ordering: for every tree and every file-selection
assignment `f`, `get_selected_files` returns exactly the selected files in
the tree's depth-first pre-order — independent of the order in which the
selections were made, since the output depends only on the final assignment
— and `_sort_tree_children` makes every child list sorted
directories-before-files, then case-insensitively by name. -/
theorem extraction_ordering (f : String → Bool) (t : TreeNode) :
    getSelectedFiles (applyFlags f (sortTree t))
      = (preorderFilePaths (sortTree t)).filter f
  ∧ ChildrenSorted (sortTree t) :=
  ⟨getSelectedFiles_applyFlags f (sortTree t), childrenSorted_sortTree t⟩

/-! ## Claim C4: ignore-pattern matching examples -/

/-- **C4.**  The spec's pattern-matching examples, evaluated on
`is_ignored_by_gitignore`: the directory-style pattern `node_modules/`
matches `node_modules/x.js` and `a/b/node_modules/y.js` (a path segment
equals the pattern with its trailing slash stripped) but not
`my_node_modules_folder/y.js`; the glob `*.log` matches `app.log` and
`logs/app.log` (here already as a whole-path glob, since `*` also matches
`/`) but not `app.log.bak`. -/
theorem pattern_matching_examples :
    isIgnoredByGitignore "node_modules/x.js" ["node_modules/"] = true
  ∧ isIgnoredByGitignore "a/b/node_modules/y.js" ["node_modules/"] = true
  ∧ isIgnoredByGitignore "my_node_modules_folder/y.js" ["node_modules/"] = false
  ∧ isIgnoredByGitignore "app.log" ["*.log"] = true
  ∧ isIgnoredByGitignore "logs/app.log" ["*.log"] = true
  ∧ isIgnoredByGitignore "app.log.bak" ["*.log"] = false :=
  ⟨by decide, by decide, by decide, by decide, by decide, by decide⟩
